import Mathlib

/-!
Verification of the cardputer-voice streaming protocol engine.

This file gives a shallow embedding of the repository's core logic and proves
the spec's testable properties against it. The repository ships two app
variants and two worker variants:

* `app.js` (Web Serial variant, `src/unnamed/part_000`): accumulates incoming
  bytes into one growing buffer, rescans it with `findEOF` after every chunk,
  discards recordings shorter than 512 bytes, converts bytes to little-endian
  signed 16-bit samples, and replies with `text + '\0'` in a single write.
* `sw.js` second half (WebUSB variant): checks only whether a whole transfer
  *begins* with the 4-byte EOF marker (`isEOF`), keeps transfers as chunks,
  has no minimum-length check, and sends no reply when the transcript text is
  empty.
* `worker.js` (`src/unnamed/part_001`), two variants: naive `/32768` scaling,
  and peak normalization (`scale = peak > 50 ? 0.9/peak : 1/32768`).

Bytes are modelled as `Nat` (values 0..255 where it matters), JS numbers used
as exact quantities as `ℚ`, byte buffers as `List Nat`, and the JS string
builtins `TextEncoder.encode` / `String.prototype.trim` as executable Lean
functions over `String`.
-/

namespace CardputerVoice

/-- Code: the 4-byte EOF marker emitted by the firmware when recording stops
(`EOF_MARKER` in both app variants). -/
def EOF_MARKER : List Nat := [0xFF, 0xFE, 0xFD, 0xFC]

/-- Code: the loop body condition of `findEOF` in `app.js`
(`bytes[i] === 0xFF && bytes[i+1] === 0xFE && bytes[i+2] === 0xFD &&
bytes[i+3] === 0xFC`). Out-of-range JS indexing yields `undefined`, which the
strict comparisons reject; `l[i]?` being `none` models that. -/
def matchAt (bytes : List Nat) (i : Nat) : Bool :=
  bytes[i]? == some 0xFF && bytes[i + 1]? == some 0xFE &&
  bytes[i + 2]? == some 0xFD && bytes[i + 3]? == some 0xFC

/-- Code: `findEOF` in `app.js` — `for (let i = 0; i <= bytes.length - 4; i++)`
returning the first `i` whose 4-byte window equals the marker, else `-1`
(modelled as `none`). The JS loop runs for `i < bytes.length - 3` exactly
(for `bytes.length < 4` the bound is negative and the loop body never runs,
matching truncated subtraction). -/
def findEOF (bytes : List Nat) : Option Nat :=
  (List.range (bytes.length - 3)).find? (matchAt bytes)

/-- Code: the accumulate-and-rescan discipline of `receiveLoop` in `app.js`:
append each incoming chunk to the growing buffer and call `findEOF` on the
whole buffer; stop with the found offset, or report no match after the last
chunk. -/
def scanAccum (acc : List Nat) : List (List Nat) → Option Nat
  | [] => none
  | chunk :: rest =>
    match findEOF (acc ++ chunk) with
    | some i => some i
    | none => scanAccum (acc ++ chunk) rest

/-- First-match characterization of `List.find?` over `List.range`. -/
theorem find?_range_eq_some_iff {p : Nat → Bool} (n i : Nat) :
    (List.range n).find? p = some i ↔ i < n ∧ p i = true ∧ ∀ j < i, p j = false := by
  induction n generalizing i with
  | zero => simp [List.range_zero]
  | succ n ih =>
    rw [List.range_succ, List.find?_append]
    cases hfind : (List.range n).find? p with
    | some k =>
      obtain ⟨hkn, hpk, hmin⟩ := (ih k).mp hfind
      rw [Option.or_some]
      constructor
      · intro h
        injection h with h
        subst h
        exact ⟨by omega, hpk, hmin⟩
      · rintro ⟨hin, hpi, hmini⟩
        have hik : i = k := by
          rcases Nat.lt_trichotomy i k with h | h | h
          · exact absurd hpi (by rw [hmin i h]; simp)
          · exact h
          · exact absurd hpk (by rw [hmini k h]; simp)
        subst hik
        rfl
    | none =>
      have hnone : ∀ j < n, p j = false := by
        intro j hj
        have h := List.find?_eq_none.mp hfind j (List.mem_range.mpr hj)
        simpa using h
      rw [Option.none_or, List.find?_cons]
      cases hpn : p n with
      | true =>
        constructor
        · intro h
          injection h with h
          subst h
          exact ⟨Nat.lt_succ_self n, hpn, hnone⟩
        · rintro ⟨hin, hpi, hmini⟩
          have hi : i = n := by
            rcases Nat.lt_or_ge i n with h | h
            · exact absurd hpi (by rw [hnone i h]; simp)
            · omega
          subst hi
          rfl
      | false =>
        constructor
        · intro h
          rw [List.find?_nil] at h
          cases h
        · rintro ⟨hin, hpi, hmini⟩
          have hi : i = n := by
            rcases Nat.lt_or_ge i n with h | h
            · exact absurd hpi (by rw [hnone i h]; simp)
            · omega
          subst hi
          exact absurd hpi (by rw [hpn]; simp)

/-- A complete 4-byte match needs all four bytes inside the buffer. -/
theorem matchAt_bound {b : List Nat} {i : Nat} (h : matchAt b i = true) :
    i + 4 ≤ b.length := by
  have h3 : b[i + 3]? = some 0xFC := by
    simp only [matchAt, Bool.and_eq_true, beq_iff_eq] at h
    exact h.2
  obtain ⟨hlt, -⟩ := List.getElem?_eq_some.mp h3
  omega

/-- Matching at an index that lies wholly inside the left part of an append is
unaffected by the right part. -/
theorem matchAt_append_of_le {a : List Nat} (b : List Nat) {i : Nat}
    (h : i + 4 ≤ a.length) : matchAt (a ++ b) i = matchAt a i := by
  have h0 : (a ++ b)[i]? = a[i]? := by
    rw [List.getElem?_append]
    exact if_pos (by omega)
  have h1 : (a ++ b)[i + 1]? = a[i + 1]? := by
    rw [List.getElem?_append]
    exact if_pos (by omega)
  have h2 : (a ++ b)[i + 2]? = a[i + 2]? := by
    rw [List.getElem?_append]
    exact if_pos (by omega)
  have h3 : (a ++ b)[i + 3]? = a[i + 3]? := by
    rw [List.getElem?_append]
    exact if_pos (by omega)
  rw [matchAt, matchAt, h0, h1, h2, h3]

/-- Characterization of `findEOF`: it returns the first complete match. -/
theorem findEOF_eq_some_iff {b : List Nat} {i : Nat} :
    findEOF b = some i ↔ matchAt b i = true ∧ ∀ j < i, matchAt b j = false := by
  rw [findEOF, find?_range_eq_some_iff]
  constructor
  · rintro ⟨-, h2, h3⟩
    exact ⟨h2, h3⟩
  · rintro ⟨h2, h3⟩
    have hb := matchAt_bound h2
    exact ⟨by omega, h2, h3⟩

/-- Characterization of `findEOF` returning no offset. -/
theorem findEOF_eq_none_iff {b : List Nat} :
    findEOF b = none ↔ ∀ i, matchAt b i = false := by
  rw [findEOF, List.find?_eq_none]
  constructor
  · intro h i
    by_cases hi : i < b.length - 3
    · have hm := h i (List.mem_range.mpr hi)
      simpa using hm
    · cases hmi : matchAt b i with
      | false => rfl
      | true =>
        have hb := matchAt_bound hmi
        omega
  · intro h x _
    simp [h x]

/-- A match found in a buffer stays the first match after more bytes arrive. -/
theorem findEOF_append_of_some {a : List Nat} (b : List Nat) {i : Nat}
    (h : findEOF a = some i) : findEOF (a ++ b) = some i := by
  obtain ⟨hm, hmin⟩ := findEOF_eq_some_iff.mp h
  have hb := matchAt_bound hm
  apply findEOF_eq_some_iff.mpr
  constructor
  · rw [matchAt_append_of_le b hb]
    exact hm
  · intro j hj
    rw [matchAt_append_of_le b (by omega)]
    exact hmin j hj

/-- Accumulating chunks and rescanning after each one finds exactly the first
match of the fully concatenated stream. -/
theorem scanAccum_eq_findEOF (chunks : List (List Nat)) :
    ∀ acc, findEOF acc = none →
      scanAccum acc chunks = findEOF (acc ++ chunks.flatten) := by
  induction chunks with
  | nil =>
    intro acc hacc
    rw [scanAccum, List.flatten_nil, List.append_nil, hacc]
  | cons chunk rest ih =>
    intro acc hacc
    rw [scanAccum, List.flatten_cons, ← List.append_assoc]
    cases hfind : findEOF (acc ++ chunk) with
    | some i => rw [findEOF_append_of_some rest.flatten hfind]
    | none => exact ih (acc ++ chunk) hfind

/-- Code: storing `lo | (hi << 8)` into an `Int16Array` slot in `receiveLoop`
(`app.js`): the value is reduced mod 2^16 and reinterpreted as a signed
16-bit integer. -/
def toSigned16 (v : Nat) : Int :=
  if v % 65536 < 32768 then ((v % 65536 : Nat) : Int)
  else ((v % 65536 : Nat) : Int) - 65536

/-- Code: the byte-to-sample conversion in `receiveLoop` (`app.js`):
`samples = Math.floor(audioBytes.length / 2)` and
`combined[i] = audioBytes[i*2] | (audioBytes[i*2+1] << 8)` into an
`Int16Array`. A trailing odd byte is dropped by the floor. -/
def toSamples (audioBytes : List Nat) : List Int :=
  (List.range (audioBytes.length / 2)).map fun i =>
    toSigned16 ((audioBytes[2 * i]?.getD 0) ||| ((audioBytes[2 * i + 1]?.getD 0) <<< 8))

/-- Bit-level or of a low byte with a shifted high part is plain addition. -/
theorem lor_shiftLeft_eq_add {lo : Nat} (hi : Nat) (h : lo < 256) :
    lo ||| (hi <<< 8) = lo + 256 * hi := by
  apply Nat.eq_of_testBit_eq
  intro k
  rw [Nat.testBit_lor, Nat.testBit_shiftLeft]
  rcases Nat.lt_or_ge k 8 with hk | hk
  · have hge : decide (k ≥ 8) = false := decide_eq_false (by omega)
    rw [hge, Bool.false_and, Bool.or_false]
    have h2 : 256 * hi = 2 ^ k * (2 * (2 ^ (7 - k) * hi)) := by
      have h256 : (256 : Nat) = 2 ^ k * (2 * 2 ^ (7 - k)) := by
        rw [show (256 : Nat) = 2 ^ 8 by norm_num, ← pow_succ', ← pow_add]
        congr 1
        omega
      rw [h256]; ring
    have hr : (lo + 256 * hi).testBit k = lo.testBit k := by
      rw [Nat.testBit_to_div_mod, Nat.testBit_to_div_mod, h2,
          Nat.add_mul_div_left _ _ (Nat.pos_pow_of_pos k (by norm_num)),
          Nat.add_mul_mod_self_left]
    rw [hr]
  · have hge : decide (k ≥ 8) = true := decide_eq_true hk
    rw [hge, Bool.true_and]
    have hlo : lo.testBit k = false := by
      apply Nat.testBit_eq_false_of_lt
      calc lo < 256 := h
        _ = 2 ^ 8 := by norm_num
        _ ≤ 2 ^ k := Nat.pow_le_pow_right (by norm_num) hk
    rw [hlo, Bool.false_or]
    have hq : (lo + 256 * hi) / 2 ^ 8 = hi := by
      rw [show (256 : Nat) * hi = 2 ^ 8 * hi by norm_num,
          Nat.add_mul_div_left _ _ (by norm_num : (0 : Nat) < 2 ^ 8),
          Nat.div_eq_of_lt (by omega : lo < 2 ^ 8)]
      omega
    have hr : (lo + 256 * hi).testBit k = hi.testBit (k - 8) := by
      rw [Nat.testBit_to_div_mod, Nat.testBit_to_div_mod,
          show 2 ^ k = 2 ^ 8 * 2 ^ (k - 8) by rw [← pow_add]; congr 1; omega,
          ← Nat.div_div_eq_div_mul, hq]
    rw [hr]

/-- Code: the peak scan in the peak-normalizing `transcribe` variant
(`worker.js`): `let peak = 0; for (...) { const abs = Math.abs(audioData[i]);
if (abs > peak) peak = abs; }`. -/
def peakOf (audioData : List Int) : Nat :=
  audioData.foldl (fun peak s => max peak s.natAbs) 0

/-- Code: `const scale = peak > 50 ? 0.9 / peak : 1.0 / 32768.0` in the
peak-normalizing `transcribe` variant, with the JS float arithmetic read as
exact rational arithmetic. -/
def scaleOf (audioData : List Int) : ℚ :=
  if 50 < peakOf audioData then (9 / 10 : ℚ) / (peakOf audioData : ℚ)
  else 1 / 32768

/-- Code: `float32[i] = audioData[i] * scale` in the peak-normalizing
`transcribe` variant. -/
def normalizeAudio (audioData : List Int) : List ℚ :=
  audioData.map fun (s : Int) => (s : ℚ) * scaleOf audioData

/-- Code: `float32[i] = audioData[i] / 32768.0` in the naive-scaling
`transcribe` variant. -/
def naiveNormalize (audioData : List Int) : List ℚ :=
  audioData.map fun (s : Int) => (s : ℚ) / 32768

/-- The running peak never decreases below its initial value. -/
theorem peak_foldl_init_le (l : List Int) :
    ∀ a : Nat, a ≤ l.foldl (fun peak s => max peak s.natAbs) a := by
  induction l with
  | nil => intro a; exact Nat.le_refl a
  | cons c l ih =>
    intro a
    calc a ≤ max a c.natAbs := Nat.le_max_left _ _
      _ ≤ l.foldl (fun peak s => max peak s.natAbs) (max a c.natAbs) := ih _

/-- Every sample's magnitude is bounded by the final running peak. -/
theorem peak_foldl_mem_le (l : List Int) :
    ∀ (a : Nat) (s : Int), s ∈ l → s.natAbs ≤ l.foldl (fun peak s => max peak s.natAbs) a := by
  induction l with
  | nil => intro a s hs; cases hs
  | cons c l ih =>
    intro a s hs
    rcases List.mem_cons.mp hs with h | h
    · subst h
      calc s.natAbs ≤ max a s.natAbs := Nat.le_max_right _ _
        _ ≤ l.foldl (fun peak s => max peak s.natAbs) (max a s.natAbs) :=
            peak_foldl_init_le l _
    · exact ih _ s h

/-- The final running peak is the initial value or some sample's magnitude. -/
theorem peak_foldl_attained (l : List Int) :
    ∀ a : Nat, l.foldl (fun peak s => max peak s.natAbs) a = a ∨
      ∃ s ∈ l, s.natAbs = l.foldl (fun peak s => max peak s.natAbs) a := by
  induction l with
  | nil => intro a; exact Or.inl rfl
  | cons c l ih =>
    intro a
    rcases ih (max a c.natAbs) with h | h
    · rw [List.foldl_cons, h]
      rcases max_choice a c.natAbs with hm | hm
      · exact Or.inl hm
      · exact Or.inr ⟨c, List.mem_cons_self c l, hm.symm⟩
    · obtain ⟨s, hs, hval⟩ := h
      exact Or.inr ⟨s, List.mem_cons_of_mem c hs, by rw [List.foldl_cons]; exact hval⟩

/-- Every sample magnitude is bounded by `peakOf`. -/
theorem natAbs_le_peakOf {buf : List Int} {s : Int} (hs : s ∈ buf) :
    s.natAbs ≤ peakOf buf :=
  peak_foldl_mem_le buf 0 s hs

/-- Model of the JS `TextEncoder().encode` builtin called by both `sendText`
variants: the UTF-8 bytes of a string. -/
def utf8Bytes (s : String) : List Nat :=
  (s.data.flatMap String.utf8EncodeChar).map UInt8.toNat

/-- Model of the JS whitespace class used by `String.prototype.trim`
(space, tab, line terminators, vertical tab, form feed, NBSP, BOM). -/
def jsWhitespaceChar (c : Char) : Bool :=
  c = ' ' || c = '\t' || c = '\n' || c = '\r' ||
  c = '\x0b' || c = '\x0c' || c = ' ' || c = '﻿'

/-- Model of the JS `String.prototype.trim` builtin called on `data.text`:
drop leading and trailing whitespace. -/
def jsTrim (s : String) : String :=
  ⟨((s.data.dropWhile jsWhitespaceChar).reverse.dropWhile jsWhitespaceChar).reverse⟩

/-- UTF-8 encoding distributes over string append. -/
theorem utf8Bytes_append (s t : String) :
    utf8Bytes (s ++ t) = utf8Bytes s ++ utf8Bytes t := by
  simp [utf8Bytes, String.data_append]

/-- Code: `sendText` (both variants): one call to `write` / `transferOut`
carrying `new TextEncoder().encode(text + '\0')`. The returned list is the
sequence of transport writes the call performs — exactly one. -/
def sendText (text : String) : List (List Nat) :=
  [utf8Bytes (text ++ "\x00")]

/-- Code: the `transcript` case of `worker.onmessage` in the Web Serial
variant (`app.js`): `if (data.text && data.text.trim()) { ...
sendText(data.text.trim() + ' '); } else { sendText(''); }`. JS string
truthiness is nonemptiness. The returned list is the sequence of transport
writes performed. -/
def serialOnTranscript (text : String) : List (List Nat) :=
  if text ≠ "" ∧ jsTrim text ≠ "" then sendText (jsTrim text ++ " ")
  else sendText ""

/-- Code: the `transcript` case of `worker.onmessage` in the WebUSB variant
(`sw.js`): `if (data.text) { ... sendText(data.text + ' '); }` — nothing at
all is sent when `data.text` is empty. -/
def usbOnTranscript (text : String) : List (List Nat) :=
  if text ≠ "" then sendText (text ++ " ") else []

/-- Each Web Serial transcript handler run performs exactly one write. -/
theorem serialOnTranscript_length (text : String) :
    (serialOnTranscript text).length = 1 := by
  rw [serialOnTranscript]
  split <;> rfl

/-- Code: the post-EOF tail of one `receiveLoop` iteration in the Web Serial
variant (`app.js`): `if (audioBytes.length < 512) continue;` then
`if (!modelReady) continue;` then `worker.postMessage({type:'transcribe',
audioData: combined, ...})`. The result is the dispatched
`TranscriptionRequest`'s samples, or `none` when the iteration falls back to
the top of the loop (Idle) without dispatching. No transport write occurs on
any path of this code. -/
def serialIteration (modelReady : Bool) (audioBytes : List Nat) : Option (List Int) :=
  if audioBytes.length < 512 then none
  else if modelReady = false then none
  else some (toSamples audioBytes)

/-- Code: `isEOF` in the WebUSB variant (`sw.js`): a transfer is an EOF
marker iff it is at least 4 bytes long and *begins* with the marker. -/
def isEOF (dataView : List Nat) : Bool :=
  if dataView.length < 4 then false
  else dataView[0]? == some 0xFF && dataView[1]? == some 0xFE &&
       dataView[2]? == some 0xFD && dataView[3]? == some 0xFC

/-- Code: the drain loop of `receiveLoop` in the WebUSB variant: keep
accumulating transfers until one satisfies `isEOF`. -/
def takeUntilEOF : List (List Nat) → List (List Nat)
  | [] => []
  | c :: cs => if isEOF c = true then [] else c :: takeUntilEOF cs

/-- Outcome of one WebUSB `receiveLoop` iteration. -/
inductive UsbOutcome where
  | spuriousEOF
  | notReady
  | dispatch (samples : List Int)
deriving DecidableEq

/-- The request a WebUSB iteration hands to the worker, if any. -/
def UsbOutcome.request : UsbOutcome → Option (List Int)
  | .dispatch samples => some samples
  | _ => none

/-- Code: one `receiveLoop` iteration in the WebUSB variant (`sw.js`), given
the first transfer of the iteration and the transfers the drain loop will
read: `if (isEOF(first.data)) continue;` else accumulate `first` plus the
drained chunks (each reinterpreted as little-endian `Int16Array`),
concatenate, then `if (!modelReady) continue;` else post the transcribe
request. There is no minimum-length check on this path. -/
def usbIteration (modelReady : Bool) (first : List Nat) (rest : List (List Nat)) : UsbOutcome :=
  if isEOF first = true then .spuriousEOF
  else
    let audioChunks := first :: takeUntilEOF rest
    if modelReady = false then .notReady
    else .dispatch (audioChunks.map toSamples).flatten

/-- State of the Web Serial connection: the history of dispatched
transcription requests (in `postMessage` order), how many transcript
messages have been handled so far, the successful transport writes, and the
`modelReady` flag. Which pending request a handled transcript answers is
deliberately not recorded: no repository code constrains the completion
order of overlapping `transcriber` calls. -/
structure SerialSys where
  modelReady : Bool
  dispatched : List (List Int)
  answered : Nat
  writes : List (List Nat)
deriving DecidableEq

/-- Fresh connection state: model loading, nothing dispatched or written. -/
def initSys : SerialSys :=
  { modelReady := false, dispatched := [], answered := 0, writes := [] }

/-- One observable step of the Web Serial engine (`app.js`):
`ready` is the worker's `ready` message setting `modelReady = true`.
`recording` is one `receiveLoop` iteration completing an accepted recording
(length ≥ 512, model ready) and posting its transcribe request — the loop
does *not* wait for the reply before reading again, so nothing here relates
`dispatched` to `answered`. `result` is one `worker.onmessage` transcript
handler running for some pending request: the handler makes exactly one
`sendText` call, whose single write either succeeds (appending the bytes of
`serialOnTranscript`) or — because the `async` handlers can overlap and
`port.writable.getWriter()` throws while another handler still holds the
lock — fails inside `sendText`, is swallowed by its `catch`, and the reply
is dropped (`w = []`). Neither the identity of the finishing request nor the
success of the write is constrained by repository code, so both are left
nondeterministic. -/
inductive Step : SerialSys → SerialSys → Prop where
  | ready (s : SerialSys) : Step s { s with modelReady := true }
  | recording (s : SerialSys) (bytes : List Nat) (hlen : 512 ≤ bytes.length)
      (hm : s.modelReady = true) :
      Step s { s with dispatched := s.dispatched ++ [toSamples bytes] }
  | result (s : SerialSys) (text : String) (w : List (List Nat))
      (hpend : s.answered < s.dispatched.length)
      (hw : w = serialOnTranscript text ∨ w = []) :
      Step s { s with answered := s.answered + 1, writes := s.writes ++ w }

/-- States reachable from a fresh connection. -/
inductive Reachable : SerialSys → Prop where
  | init : Reachable initSys
  | step {s t : SerialSys} : Reachable s → Step s t → Reachable t

/-- Claim C1: sentinel detection is chunk-boundary invariant — for every byte
stream and every way of splitting it into chunks, accumulating the chunks
into one buffer and scanning with `findEOF` after each chunk yields the same
first-match offset as scanning the whole stream at once; in particular a
sentinel split across two chunk boundaries is still found. -/
theorem findEOF_chunk_invariant :
    (∀ chunks : List (List Nat), scanAccum [] chunks = findEOF chunks.flatten) ∧
    scanAccum [] [[1, 2, 255, 254], [253, 252]] = some 2 ∧
    findEOF [1, 2, 255, 254, 253, 252] = some 2 := by
  refine ⟨?_, by decide, by decide⟩
  intro chunks
  have h := scanAccum_eq_findEOF chunks [] (by decide)
  simpa using h

/-- Claim C9: `findEOF` returns the index of the first complete 4-byte
sentinel match within the buffer, returns `none` exactly when no complete
match exists, and no match starts at any index before a returned offset. -/
theorem findEOF_first_match (b : List Nat) :
    (∀ i, findEOF b = some i → matchAt b i = true ∧ ∀ j < i, matchAt b j = false) ∧
    (findEOF b = none ↔ ∀ i, matchAt b i = false) :=
  ⟨fun _ h => findEOF_eq_some_iff.mp h, findEOF_eq_none_iff⟩

/-- Witness for C9 at a concrete buffer carrying the sentinel at offset 1. -/
theorem findEOF_first_match_witness :
    matchAt [0, 255, 254, 253, 252] 1 = true ∧
    matchAt [0, 255, 254, 253, 252] 0 = false :=
  ⟨((findEOF_first_match [0, 255, 254, 253, 252]).1 1 (by decide)).1,
   ((findEOF_first_match [0, 255, 254, 253, 252]).1 1 (by decide)).2 0 (by decide)⟩

/-- Claim C7: audio assembly converts the recording bytes to exactly
`⌊length/2⌋` signed 16-bit samples, each formed from a consecutive
little-endian byte pair (`lo + 256 * hi`, low byte first), dropping a
trailing odd byte; bytes `[0x10, 0x20, 0x30, 0x40]` give the two samples
`[0x2010, 0x4030]`. -/
theorem toSamples_little_endian (bytes : List Nat) (hb : ∀ x ∈ bytes, x < 256) :
    (toSamples bytes).length = bytes.length / 2 ∧
    (∀ i, 2 * i + 1 < bytes.length →
      (toSamples bytes)[i]? =
        some (toSigned16 (bytes[2 * i]?.getD 0 + 256 * bytes[2 * i + 1]?.getD 0))) ∧
    toSamples [0x10, 0x20, 0x30, 0x40] = [0x2010, 0x4030] := by
  refine ⟨?_, ?_, by decide⟩
  · rw [toSamples, List.length_map, List.length_range]
  · intro i hi
    rw [toSamples, List.getElem?_map, List.getElem?_range (by omega : i < bytes.length / 2)]
    have hlo : bytes[2 * i]?.getD 0 < 256 := by
      have h2i : 2 * i < bytes.length := by omega
      rw [List.getElem?_eq_getElem h2i]
      exact hb _ (List.getElem_mem h2i)
    simp only [Option.map_some']
    rw [lor_shiftLeft_eq_add _ hlo]

/-- Witness for C7 at the spec's scenario bytes. -/
theorem toSamples_little_endian_witness :
    (toSamples [16, 32, 48, 64]).length = [16, 32, 48, 64].length / 2 ∧
    (toSamples [16, 32, 48, 64])[0]? =
      some (toSigned16
        ([16, 32, 48, 64][2 * 0]?.getD 0 + 256 * [16, 32, 48, 64][2 * 0 + 1]?.getD 0)) :=
  ⟨(toSamples_little_endian [16, 32, 48, 64] (by decide)).1,
   (toSamples_little_endian [16, 32, 48, 64] (by decide)).2.1 0 (by decide)⟩

/-- Peak of a buffer of zeros followed by one sample. -/
theorem peakOf_replicate_zero_append (n : Nat) (x : Int) :
    peakOf (List.replicate n 0 ++ [x]) = x.natAbs := by
  have hrep : ∀ m, (List.replicate m (0 : Int)).foldl (fun peak s => max peak s.natAbs) 0 = 0 := by
    intro m
    induction m with
    | zero => rfl
    | succ m ih =>
      rw [List.replicate_succ, List.foldl_cons]
      simpa using ih
  rw [peakOf, List.foldl_append, hrep, List.foldl_cons]
  simp

/-- Claim C5: normalization selects its scale by peak-scanning the sample
buffer — the scanned peak is exactly the maximum sample magnitude (bounding
every sample and attained by one unless the buffer is silent), the applied
scale is `0.9/peak` whenever the peak is strictly above the noise floor 50,
and `1/32768` otherwise. -/
theorem normalization_scale_spec (buf : List Int) :
    (∀ s ∈ buf, s.natAbs ≤ peakOf buf) ∧
    (peakOf buf = 0 ∨ ∃ s ∈ buf, s.natAbs = peakOf buf) ∧
    (50 < peakOf buf → scaleOf buf = (9 / 10 : ℚ) / (peakOf buf : ℚ)) ∧
    (peakOf buf ≤ 50 → scaleOf buf = 1 / 32768) := by
  refine ⟨fun s hs => natAbs_le_peakOf hs, peak_foldl_attained buf 0, ?_, ?_⟩
  · intro h
    rw [scaleOf, if_pos h]
  · intro h
    rw [scaleOf, if_neg (by omega)]

/-- Witness for C5 at the spec's scenario: a 1000-sample (2000-byte)
recording whose peak magnitude is 16000 is scaled by `0.9/16000`. -/
theorem normalization_scale_spec_witness :
    scaleOf (List.replicate 999 (0 : Int) ++ [16000]) = (9 / 10 : ℚ) / 16000 ∧
    (List.replicate 999 (0 : Int) ++ [16000]).length = 1000 := by
  have hpeak : peakOf (List.replicate 999 (0 : Int) ++ [16000]) = 16000 := by
    rw [peakOf_replicate_zero_append]
    decide
  constructor
  · have h := (normalization_scale_spec (List.replicate 999 (0 : Int) ++ [16000])).2.2.1
      (by rw [hpeak]; norm_num)
    rw [h, hpeak]
    norm_num
  · rw [List.length_append, List.length_replicate]
    decide

/-- Claim C6: normalization never produces an output sample of magnitude
greater than 1, and a buffer of pure silence (peak 0) takes the fallback
`1/32768` scale instead of dividing by the zero peak; the naive-scaling
variant is likewise bounded for 16-bit samples. -/
theorem normalize_output_bounded (buf : List Int) :
    (∀ y ∈ normalizeAudio buf, |y| ≤ 1) ∧
    (peakOf buf = 0 → scaleOf buf = 1 / 32768) ∧
    ((∀ s ∈ buf, s.natAbs ≤ 32768) → ∀ y ∈ naiveNormalize buf, |y| ≤ 1) := by
  refine ⟨?_, ?_, ?_⟩
  · intro y hy
    simp only [normalizeAudio, List.mem_map] at hy
    obtain ⟨s, hs, rfl⟩ := hy
    have habs : |(s : ℚ)| = (s.natAbs : ℚ) := by
      rw [Int.cast_natAbs, Int.cast_abs]
    have hmem := natAbs_le_peakOf hs
    by_cases hp : 50 < peakOf buf
    · have hscale : scaleOf buf = (9 / 10 : ℚ) / (peakOf buf : ℚ) := by
        rw [scaleOf, if_pos hp]
      have hppos : (0 : ℚ) < (peakOf buf : ℚ) := by
        exact_mod_cast Nat.lt_of_le_of_lt (Nat.zero_le 50) hp
      calc |(s : ℚ) * scaleOf buf| = |(s : ℚ)| * |scaleOf buf| := abs_mul _ _
        _ = (s.natAbs : ℚ) * ((9 / 10) / (peakOf buf : ℚ)) := by
            rw [habs, hscale, abs_of_nonneg (by positivity)]
        _ ≤ (peakOf buf : ℚ) * ((9 / 10) / (peakOf buf : ℚ)) := by
            apply mul_le_mul_of_nonneg_right _ (by positivity)
            exact_mod_cast hmem
        _ = 9 / 10 := by field_simp; ring
        _ ≤ 1 := by norm_num
    · have hscale : scaleOf buf = 1 / 32768 := by
        rw [scaleOf, if_neg hp]
      have h50 : s.natAbs ≤ 50 := le_trans hmem (by omega)
      calc |(s : ℚ) * scaleOf buf| = (s.natAbs : ℚ) * (1 / 32768) := by
            rw [abs_mul, habs, hscale, abs_of_nonneg (by norm_num)]
        _ ≤ 50 * (1 / 32768) := by
            apply mul_le_mul_of_nonneg_right _ (by norm_num)
            exact_mod_cast h50
        _ ≤ 1 := by norm_num
  · intro h
    rw [scaleOf, h, if_neg (by omega)]
  · intro h16 y hy
    simp only [naiveNormalize, List.mem_map] at hy
    obtain ⟨s, hs, rfl⟩ := hy
    have habs : |(s : ℚ)| = (s.natAbs : ℚ) := by
      rw [Int.cast_natAbs, Int.cast_abs]
    calc |(s : ℚ) / 32768| = (s.natAbs : ℚ) / 32768 := by
          rw [abs_div, habs, abs_of_nonneg (by norm_num : (0 : ℚ) ≤ 32768)]
      _ ≤ 32768 / 32768 := by
          gcongr
          exact_mod_cast h16 s hs
      _ ≤ 1 := by norm_num

/-- Witness for C6 at concrete buffers: a loud single-sample buffer stays in
bounds under both scalings, and the empty (silent) buffer takes the fallback
scale. -/
theorem normalize_output_bounded_witness :
    |((16000 : Int) : ℚ) * scaleOf [(16000 : Int)]| ≤ 1 ∧
    scaleOf ([] : List Int) = 1 / 32768 ∧
    |((16000 : Int) : ℚ) / 32768| ≤ 1 :=
  ⟨(normalize_output_bounded [(16000 : Int)]).1 _ (by simp [normalizeAudio]),
   (normalize_output_bounded ([] : List Int)).2.1 (by decide),
   (normalize_output_bounded [(16000 : Int)]).2.2 (by decide) _ (by simp [naiveNormalize])⟩

/-- Claim C2 counterexample: in the WebUSB variant an empty transcription
result produces NO outbound message at all — not the mandated single `0x00`
byte. -/
theorem usb_empty_transcript_writes_nothing :
    usbOnTranscript "" = [] ∧ usbOnTranscript "" ≠ [[0]] := by
  decide

/-- Claim C2 (amended): in the Web Serial variant, a transcription result
whose text is empty or whitespace-only still produces exactly one outbound
write, the single byte `0x00`; the WebUSB variant instead writes nothing for
empty text (see the counterexample). -/
theorem serial_empty_transcript_single_null (text : String) (h : jsTrim text = "") :
    serialOnTranscript text = [[0]] := by
  have hc : ¬ (text ≠ "" ∧ jsTrim text ≠ "") := fun hc => hc.2 h
  rw [serialOnTranscript, if_neg hc]
  decide

/-- Witness for C2's amended claim at the whitespace-only text `" "`. -/
theorem serial_empty_transcript_single_null_witness :
    serialOnTranscript " " = [[0]] :=
  serial_empty_transcript_single_null " " (by decide)

/-- Claim C3 counterexample: the WebUSB variant performs no minimum-length
check — a completed 4-byte recording (one 4-byte data transfer followed by
an EOF transfer, model ready) is dispatched to the engine rather than
discarded. -/
theorem usb_short_recording_dispatched :
    usbIteration true [16, 32, 48, 64] [[255, 254, 253, 252]] =
      UsbOutcome.dispatch [8208, 16432] ∧
    [16, 32, 48, 64].length < 512 := by
  decide

/-- Claim C3 (amended): in the Web Serial variant, every completed recording
shorter than 512 bytes is silently discarded — the iteration dispatches no
`TranscriptionRequest` and falls back to the top of the loop (Idle), and no
path of the iteration writes to the transport; the WebUSB variant has no
such minimum-length check (see the counterexample). -/
theorem serial_short_recording_discarded (modelReady : Bool) (audioBytes : List Nat)
    (h : audioBytes.length < 512) :
    serialIteration modelReady audioBytes = none := by
  rw [serialIteration, if_pos h]

/-- Witness for C3's amended claim at the spec's 4-byte scenario recording. -/
theorem serial_short_recording_discarded_witness :
    serialIteration true [16, 32, 48, 64] = none :=
  serial_short_recording_discarded true [16, 32, 48, 64] (by decide)

/-- Claim C10: in the WebUSB variant, a first transfer that begins with the
4-byte sentinel while the session is idle is treated as spurious — the
iteration starts no recording, accumulates and dispatches nothing, and skips
straight back to waiting for the next transfer. -/
theorem usb_spurious_eof_skipped (modelReady : Bool) (first : List Nat)
    (rest : List (List Nat)) (h : isEOF first = true) :
    usbIteration modelReady first rest = UsbOutcome.spuriousEOF ∧
    (usbIteration modelReady first rest).request = none := by
  rw [usbIteration, if_pos h]
  exact ⟨rfl, rfl⟩

/-- Witness for C10 at a concrete sentinel-first transfer. -/
theorem usb_spurious_eof_skipped_witness :
    usbIteration true [255, 254, 253, 252] [[1, 2]] = UsbOutcome.spuriousEOF ∧
    (usbIteration true [255, 254, 253, 252] [[1, 2]]).request = none :=
  usb_spurious_eof_skipped true [255, 254, 253, 252] [[1, 2]] (by decide)

/-- Claim C8: every outbound reply is the UTF-8 encoding of the text followed
by exactly one `0x00` byte, written to the transport in a single write call;
for engine result `"hello"` the Web Serial transcript handler writes the
UTF-8 bytes of `"hello "` (trailing space appended by the caller) followed
by `0x00`, again in exactly one write. -/
theorem sendText_wire_format :
    (∀ text : String, sendText text = [utf8Bytes text ++ [0]]) ∧
    serialOnTranscript "hello" = [utf8Bytes "hello " ++ [0]] ∧
    utf8Bytes "hello " = [104, 101, 108, 108, 111, 32] := by
  have hnull : utf8Bytes "\x00" = [0] := by decide
  have hsend : ∀ text : String, sendText text = [utf8Bytes text ++ [0]] := by
    intro text
    rw [sendText, utf8Bytes_append, hnull]
  refine ⟨hsend, ?_, by decide⟩
  have hcond : ("hello" ≠ "" ∧ jsTrim "hello" ≠ "") := ⟨by decide, by decide⟩
  rw [serialOnTranscript, if_pos hcond,
      show jsTrim "hello" ++ " " = "hello " from by decide, hsend]

/-- Claim C4 counterexample: the Web Serial receive loop does not wait for
the worker's reply before reading again, so two accepted recordings can be
dispatched before any result arrives — a reachable state (built from the
exact code transitions `ready`, `recording`, `recording` alone, with the
engine simply not finished yet) carries two `TranscriptionRequest`s in
flight, refuting "at most one in flight at any time". -/
theorem serial_two_requests_in_flight :
    ¬ ∀ s : SerialSys, Reachable s → s.dispatched.length ≤ s.answered + 1 := by
  intro hall
  have h1 : Reachable { initSys with modelReady := true } :=
    Reachable.step Reachable.init (Step.ready initSys)
  have h2 := Reachable.step h1 (Step.recording _ (List.replicate 512 0)
    (by rw [List.length_replicate]) rfl)
  have h3 := Reachable.step h2 (Step.recording _ (List.replicate 512 0)
    (by rw [List.length_replicate]) rfl)
  have hlen := hall _ h3
  simp only [initSys, List.length_append, List.length_cons, List.length_nil] at hlen
  omega

/-- Claim C4 (amended): the Web Serial code guarantees only the per-event
counts — one `receiveLoop` iteration posts exactly one transcribe request
per accepted recording, and one transcript handler run makes exactly one
reply-write attempt — so in every reachable state the successful writes
never exceed the handled results, which never exceed the dispatched
requests. The code does not bound in-flight requests to one (see the
counterexample), and once handlers overlap it neither orders the engine
completions nor guarantees delivery of each reply (a `sendText` racing a
locked writer logs and drops it), so the claimed FIFO 1:1 reply discipline
is not enforced. -/
theorem serial_one_request_one_write_attempt :
    (∀ bytes : List Nat, 512 ≤ bytes.length →
      serialIteration true bytes = some (toSamples bytes)) ∧
    (∀ text : String, (serialOnTranscript text).length = 1) ∧
    (∀ s : SerialSys, Reachable s →
      s.writes.length ≤ s.answered ∧ s.answered ≤ s.dispatched.length) := by
  refine ⟨?_, serialOnTranscript_length, ?_⟩
  · intro bytes hlen
    rw [serialIteration, if_neg (by omega), if_neg (by decide)]
  · intro s h
    induction h with
    | init => exact ⟨Nat.le_refl 0, Nat.le_refl 0⟩
    | step hr hstep ih =>
      cases hstep with
      | ready => exact ih
      | recording bytes hlen hm =>
        refine ⟨ih.1, ?_⟩
        have hd := ih.2
        simp only [List.length_append, List.length_cons, List.length_nil]
        omega
      | result text w hpend hw =>
        have hwlen : w.length ≤ 1 := by
          rcases hw with hw | hw
          · rw [hw, serialOnTranscript_length]
          · rw [hw]
            exact Nat.zero_le 1
        refine ⟨?_, ?_⟩
        · have hww := ih.1
          simp only [List.length_append]
          omega
        · have hd := ih.2
          dsimp only
          omega

/-- Witness for C4's amended claim: the 512-byte scenario recording is
dispatched as exactly one request, the transcript "hi" makes exactly one
write attempt, and the count bounds hold at a reachable state that has
completed one full recording/reply cycle. -/
theorem serial_one_request_one_write_attempt_witness :
    serialIteration true (List.replicate 512 0) = some (toSamples (List.replicate 512 0)) ∧
    (serialOnTranscript "hi").length = 1 ∧
    ((serialOnTranscript "hi").length ≤ 1 ∧ 1 ≤ [toSamples (List.replicate 512 0)].length) := by
  have h1 : Reachable { initSys with modelReady := true } :=
    Reachable.step Reachable.init (Step.ready initSys)
  have h2 := Reachable.step h1 (Step.recording _ (List.replicate 512 0)
    (by rw [List.length_replicate]) rfl)
  have h3 := Reachable.step h2 (Step.result _ "hi" (serialOnTranscript "hi")
    (by simp only [initSys, List.length_append, List.length_cons, List.length_nil]; omega)
    (Or.inl rfl))
  refine ⟨serial_one_request_one_write_attempt.1 (List.replicate 512 0)
      (by rw [List.length_replicate]),
    serial_one_request_one_write_attempt.2.1 "hi", ?_⟩
  exact serial_one_request_one_write_attempt.2.2 _ h3

end CardputerVoice
